import Mathlib

/-!
Verification of the Starship Production Simulator.

The two simulation engines (`run_configurable_simulation` in
`generate_data.py` and `run_simulation` in `dashboard.py`) are embedded
shallowly:

* timestamps are rationals counting hours since `start_date`
  (`datetime` arithmetic is pure addition of hour-valued `timedelta`s);
* the random draws consumed by one loop iteration
  (`np.random.normal(mean, std)` and `random.random()`) are supplied
  explicitly as a stream (`List Draw`), so the engines become pure
  functions of configuration and stream;
* the unbounded `while True` retry loop is modelled by recursion on the
  draw stream, returning `none` when the stream is exhausted before QC
  passes (the finite-stream image of non-termination).
-/

/-- One stage's parameters, from the `production_stages` entry of
`config.json` as consumed by both engines. -/
structure StageParams where
  mean_time_hours : ℚ
  std_dev_hours : ℚ
  pass_rate : ℚ
  station_count : ℕ
deriving Repr, DecidableEq

/-- The `simulation_parameters` block: `start_date` is the parsed
timestamp (hours on the common time axis), `num_starships` the unit
count. -/
structure SimParams where
  start_date : ℚ
  num_starships : ℕ
deriving Repr, DecidableEq

/-- The whole configuration.  `production_stages` keeps the JSON
object's insertion order as an explicit association list. -/
structure Config where
  simulation_parameters : SimParams
  production_stages : List (String × StageParams)
deriving Repr, DecidableEq

/-- The random draws consumed by one attempt of the stage loop:
`dur_sample` is the value returned by `np.random.normal(mean, std)`,
`qc_sample` the value returned by `random.random()`. -/
structure Draw where
  dur_sample : ℚ
  qc_sample : ℚ
deriving Repr, DecidableEq

/-- `f"SN{100 + i}"`: unit identifier of the `i`-th starship. -/
def shipId (i : ℕ) : String := "SN" ++ Nat.repr (100 + i)

/-- Scanning kernel of `np.argmin`: walk the tail, keeping the best
value `bv` and its index `best`; a strictly smaller element replaces
the best, so ties keep the earliest index. -/
def argminAux : List ℚ → ℚ → ℕ → ℕ → ℕ
  | [], _, _, best => best
  | x :: xs, bv, i, best =>
    if x < bv then argminAux xs x (i + 1) i else argminAux xs bv (i + 1) best

/-- `np.argmin`: index of the first minimum of the list (`0` on the
empty list, where NumPy instead faults). -/
def argmin : List ℚ → ℕ
  | [] => 0
  | x :: xs => argminAux xs x 1 0

/-- Round half to even (the rounding mode of Python's `round`). -/
def rhe (x : ℚ) : ℤ :=
  let f := Int.floor x
  let r := x - f
  if r < 1/2 then f
  else if 1/2 < r then f + 1
  else if f % 2 = 0 then f else f + 1

/-- Python's `round(x, 2)`: round to the nearest multiple of `1/100`,
ties to even. -/
def round2 (x : ℚ) : ℚ := (rhe (100 * x) : ℚ) / 100


namespace Gen

/-- One row of the ledger appended by `run_configurable_simulation`
(`generate_data.py`, lines 58-66): full schema. -/
structure Event where
  ship_id : String
  stage : String
  station_id : String
  start_time : ℚ
  end_time : ℚ
  duration_hours : ℚ
  qc_passed : Bool
deriving Repr, DecidableEq

/-- The `while True` stage-attempt loop of `run_configurable_simulation`
(`generate_data.py`, lines 43-82) for one ship at one stage, recursing
on the draw stream.  Returns the emitted events, the updated
availability array for the stage, the ship's new completion time and
the remaining stream; `none` when the stream runs dry before a QC
pass. -/
def runStage (ship stage_name : String) (sp : StageParams) :
    List Draw → List ℚ → ℚ → Option (List Event × List ℚ × ℚ × List Draw)
  | [], _, _ => none
  | d :: ds, avail, ready =>
    let station_idx := argmin avail
    let available_time := avail.getD station_idx 0
    let start_time := max ready available_time
    let processing_time_hours := max 1 d.dur_sample
    let end_time := start_time + processing_time_hours
    let qc_passed := decide (d.qc_sample < sp.pass_rate)
    let ev : Event :=
      ⟨ship, stage_name, stage_name ++ "_" ++ Nat.repr (station_idx + 1),
        start_time, end_time, round2 processing_time_hours, qc_passed⟩
    if qc_passed then
      some ([ev], avail.set station_idx end_time, end_time, ds)
    else
      let rework_end_time := end_time + sp.mean_time_hours * (1/4)
      match runStage ship stage_name sp ds
          (avail.set station_idx rework_end_time) rework_end_time with
      | none => none
      | some (evs, avail2, ready2, ds2) => some (ev :: evs, avail2, ready2, ds2)

/-- The `for stage_name, stage_params in stages.items()` loop
(`generate_data.py`, line 42) for one ship: each stage definition is
paired with its current availability array; returns the events, the
updated availability arrays (in stage order), the ship's final
completion time and the remaining stream. -/
def runStages (ship : String) :
    List ((String × StageParams) × List ℚ) → ℚ → List Draw →
    Option (List Event × List (List ℚ) × ℚ × List Draw)
  | [], ready, ds => some ([], [], ready, ds)
  | ((stage_name, sp), avail) :: rest, ready, ds =>
    match runStage ship stage_name sp ds avail ready with
    | none => none
    | some (evs, avail2, ready2, ds2) =>
      match runStages ship rest ready2 ds2 with
      | none => none
      | some (evs2, avails2, ready3, ds3) =>
          some (evs ++ evs2, avail2 :: avails2, ready3, ds3)

/-- The `for i in range(1, num_starships + 1)` loop (`generate_data.py`,
line 38): `n` ships remain, the next has index `i`; each ship starts
with `ship_completion_times[ship_id] = start_date`. -/
def runShips (stages : List (String × StageParams)) (start_date : ℚ) :
    ℕ → ℕ → List (List ℚ) → List Draw →
    Option (List Event × List (List ℚ) × List Draw)
  | 0, _, avails, ds => some ([], avails, ds)
  | n + 1, i, avails, ds =>
    match runStages (shipId i) (stages.zip avails) start_date ds with
    | none => none
    | some (evs, avails2, _, ds2) =>
      match runShips stages start_date n (i + 1) avails2 ds2 with
      | none => none
      | some (evs2, avails3, ds3) => some (evs ++ evs2, avails3, ds3)

end Gen

/-- `run_configurable_simulation` (`generate_data.py`, lines 16-84).
`none` stands for a falsy `config` (the `if not config` guard);
`station_availability` is initialised to `start_date` for every station
of every stage. -/
def run_configurable_simulation : Option Config → List Draw → Option (List Gen.Event)
  | none, _ => some []
  | some config, ds =>
    let params := config.simulation_parameters
    let stages := config.production_stages
    let station_availability :=
      stages.map fun s => List.replicate s.2.station_count params.start_date
    match Gen.runShips stages params.start_date params.num_starships 1
        station_availability ds with
    | none => none
    | some (production_log, _, _) => some production_log

namespace Dash

/-- One row of the ledger appended by `run_simulation` (`dashboard.py`,
line 50): reduced schema. -/
structure Event where
  ship_id : String
  stage : String
  start_time : ℚ
  end_time : ℚ
deriving Repr, DecidableEq

/-- The `while True` stage-attempt loop of `run_simulation`
(`dashboard.py`, lines 41-60). -/
def runStage (ship stage_name : String) (sp : StageParams) :
    List Draw → List ℚ → ℚ → Option (List Event × List ℚ × ℚ × List Draw)
  | [], _, _ => none
  | d :: ds, avail, ready =>
    let station_idx := argmin avail
    let available_time := avail.getD station_idx 0
    let start_time := max ready available_time
    let processing_time_hours := max 1 d.dur_sample
    let end_time := start_time + processing_time_hours
    let qc_passed := decide (d.qc_sample < sp.pass_rate)
    let ev : Event := ⟨ship, stage_name, start_time, end_time⟩
    if qc_passed then
      some ([ev], avail.set station_idx end_time, end_time, ds)
    else
      let rework_end_time := end_time + sp.mean_time_hours * (1/4)
      match runStage ship stage_name sp ds
          (avail.set station_idx rework_end_time) rework_end_time with
      | none => none
      | some (evs, avail2, ready2, ds2) => some (ev :: evs, avail2, ready2, ds2)

/-- The stage loop of `run_simulation` (`dashboard.py`, line 40) for
one ship. -/
def runStages (ship : String) :
    List ((String × StageParams) × List ℚ) → ℚ → List Draw →
    Option (List Event × List (List ℚ) × ℚ × List Draw)
  | [], ready, ds => some ([], [], ready, ds)
  | ((stage_name, sp), avail) :: rest, ready, ds =>
    match runStage ship stage_name sp ds avail ready with
    | none => none
    | some (evs, avail2, ready2, ds2) =>
      match runStages ship rest ready2 ds2 with
      | none => none
      | some (evs2, avails2, ready3, ds3) =>
          some (evs ++ evs2, avail2 :: avails2, ready3, ds3)

/-- The ship loop of `run_simulation` (`dashboard.py`, line 36). -/
def runShips (stages : List (String × StageParams)) (start_date : ℚ) :
    ℕ → ℕ → List (List ℚ) → List Draw →
    Option (List Event × List (List ℚ) × List Draw)
  | 0, _, avails, ds => some ([], avails, ds)
  | n + 1, i, avails, ds =>
    match runStages (shipId i) (stages.zip avails) start_date ds with
    | none => none
    | some (evs, avails2, _, ds2) =>
      match runShips stages start_date n (i + 1) avails2 ds2 with
      | none => none
      | some (evs2, avails3, ds3) => some (evs ++ evs2, avails3, ds3)

end Dash

/-- `run_simulation` (`dashboard.py`, lines 22-61). -/
def run_simulation : Option Config → List Draw → Option (List Dash.Event)
  | none, _ => some []
  | some config, ds =>
    let params := config.simulation_parameters
    let stages := config.production_stages
    let num_ships := params.num_starships
    let station_availability :=
      stages.map fun s => List.replicate s.2.station_count params.start_date
    match Dash.runShips stages params.start_date num_ships 1
        station_availability ds with
    | none => none
    | some (production_log, _, _) => some production_log

/-- Maximum of a column (`pandas` `Series.max`); `0` on the empty list,
which `calculate_kpis` never reaches thanks to its emptiness guard. -/
def listMax : List ℚ → ℚ
  | [] => 0
  | x :: xs => xs.foldl max x

/-- Minimum of a column (`pandas` `Series.min`). -/
def listMin : List ℚ → ℚ
  | [] => 0
  | x :: xs => xs.foldl min x

/-- `Timedelta.days` of an hour-valued span: whole days, floored. -/
def daysOf (hours : ℚ) : ℤ := Int.floor (hours / 24)

/-- `calculate_kpis` (`dashboard.py`, lines 74-83): filter to
`Final_Checkout` rows, count distinct ship ids, makespan in days over
the whole ledger, throughput guarded by `total_time > 0`. -/
def calculate_kpis (dataframe : List Dash.Event) : ℕ × ℚ × ℤ :=
  if dataframe.isEmpty then (0, 0, 0)
  else
    let df_completed := dataframe.filter fun e => e.stage == "Final_Checkout"
    if df_completed.isEmpty then (0, 0, 0)
    else
      let total_ships := (df_completed.map fun e => e.ship_id).dedup.length
      let total_time :=
        daysOf (listMax (dataframe.map fun e => e.end_time)
          - listMin (dataframe.map fun e => e.start_time))
      let throughput :=
        if 0 < total_time then (total_ships : ℚ) / ((total_time : ℚ) / 7) else 0
      (total_ships, throughput, total_time)

/-- Projection of a full-schema event onto the reduced schema of the
dashboard engine: the common columns, in order. -/
def projEvent (e : Gen.Event) : Dash.Event :=
  ⟨e.ship_id, e.stage, e.start_time, e.end_time⟩


/-- Pointwise domination of one availability array by another: same
station count, and each station's next-free time has not decreased. -/
def listLe (a b : List ℚ) : Prop :=
  a.length = b.length ∧ ∀ k, k < a.length → a.getD k 0 ≤ b.getD k 0

/-- Pointwise domination of a whole availability state (one array per
stage, in stage order). -/
def availsLe (a b : List (List ℚ)) : Prop := List.Forall₂ listLe a b


theorem argminAux_spec (xs : List ℚ) : ∀ bv i best,
    (argminAux xs bv i best = best ∧ ∀ k, k < xs.length → bv ≤ xs.getD k 0)
    ∨ (∃ j, j < xs.length ∧ argminAux xs bv i best = i + j ∧ xs.getD j 0 < bv ∧
        (∀ k, k < xs.length → xs.getD j 0 ≤ xs.getD k 0) ∧
        (∀ k, k < j → xs.getD j 0 < xs.getD k 0)) := by
  induction xs with
  | nil =>
      intro bv i best
      left
      exact ⟨rfl, fun k hk => absurd hk (Nat.not_lt_zero k)⟩
  | cons x xs ih =>
      intro bv i best
      by_cases hx : x < bv
      · rcases ih x (i + 1) i with ⟨heq, hall⟩ | ⟨j, hj, heq, hlt, hall, hfirst⟩
        · right
          refine ⟨0, Nat.succ_pos _, ?_, ?_, ?_, ?_⟩
          · simpa [argminAux, hx] using heq
          · simpa using hx
          · intro k hk
            cases k with
            | zero => simp
            | succ k =>
                simpa using hall k (Nat.lt_of_succ_lt_succ hk)
          · intro k hk
            exact absurd hk (Nat.not_lt_zero k)
        · right
          refine ⟨j + 1, Nat.succ_lt_succ hj, ?_, ?_, ?_, ?_⟩
          · simp only [argminAux, if_pos hx, heq]
            omega
          · simpa using lt_trans hlt hx
          · intro k hk
            cases k with
            | zero => simpa using le_of_lt hlt
            | succ k =>
                simpa using hall k (Nat.lt_of_succ_lt_succ hk)
          · intro k hk
            cases k with
            | zero => simpa using hlt
            | succ k =>
                simpa using hfirst k (Nat.lt_of_succ_lt_succ hk)
      · push_neg at hx
        rcases ih bv (i + 1) best with ⟨heq, hall⟩ | ⟨j, hj, heq, hlt, hall, hfirst⟩
        · left
          refine ⟨?_, ?_⟩
          · simpa [argminAux, not_lt.mpr hx] using heq
          · intro k hk
            cases k with
            | zero => simpa using hx
            | succ k =>
                simpa using hall k (Nat.lt_of_succ_lt_succ hk)
        · right
          refine ⟨j + 1, Nat.succ_lt_succ hj, ?_, ?_, ?_, ?_⟩
          · simp only [argminAux, if_neg (not_lt.mpr hx), heq]
            omega
          · simpa using hlt
          · intro k hk
            cases k with
            | zero => simpa using le_of_lt (lt_of_lt_of_le hlt hx)
            | succ k =>
                simpa using hall k (Nat.lt_of_succ_lt_succ hk)
          · intro k hk
            cases k with
            | zero => simpa using lt_of_lt_of_le hlt hx
            | succ k =>
                simpa using hfirst k (Nat.lt_of_succ_lt_succ hk)

/-- Helper: the three facts about `argmin` used throughout. -/
theorem argmin_spec (l : List ℚ) (hl : l ≠ []) :
    argmin l < l.length ∧
    (∀ k, k < l.length → l.getD (argmin l) 0 ≤ l.getD k 0) ∧
    (∀ k, k < argmin l → l.getD (argmin l) 0 < l.getD k 0) := by
  match l, hl with
  | x :: xs, _ =>
    rcases argminAux_spec xs x 1 0 with ⟨heq, hall⟩ | ⟨j, hj, heq, hlt, hall, hfirst⟩
    · refine ⟨?_, ?_, ?_⟩
      · simp [argmin, heq]
      · intro k hk
        simp only [argmin, heq]
        cases k with
        | zero => simp
        | succ k => simpa using hall k (Nat.lt_of_succ_lt_succ hk)
      · intro k hk
        simp [argmin, heq] at hk
    · have harg : argmin (x :: xs) = j + 1 := by
        simp only [argmin, heq]
        omega
      refine ⟨?_, ?_, ?_⟩
      · simp only [harg, List.length_cons]
        omega
      · intro k hk
        simp only [harg]
        cases k with
        | zero => simpa using le_of_lt hlt
        | succ k =>
            simpa using hall k (Nat.lt_of_succ_lt_succ hk)
      · intro k hk
        rw [harg] at hk
        simp only [harg]
        cases k with
        | zero => simpa using hlt
        | succ k =>
            simpa using hfirst k (Nat.lt_of_succ_lt_succ hk)

theorem rhe_ge (x : ℚ) (n : ℤ) (h : (n : ℚ) ≤ x) : n ≤ rhe x := by
  have hf : n ≤ Int.floor x := Int.le_floor.mpr h
  unfold rhe
  dsimp only
  split
  · exact hf
  · split
    · omega
    · split
      · exact hf
      · omega

theorem round2_ge_one (x : ℚ) (h : 1 ≤ x) : 1 ≤ round2 x := by
  have h100 : ((100 : ℤ) : ℚ) ≤ 100 * x := by
    push_cast
    nlinarith
  have h := rhe_ge (100 * x) 100 h100
  unfold round2
  rw [le_div_iff (by norm_num : (0:ℚ) < 100)]
  calc (1 : ℚ) * 100 = ((100 : ℤ) : ℚ) := by norm_num
    _ ≤ (rhe (100 * x) : ℚ) := by exact_mod_cast h

theorem runStage_proj (ship s : String) (sp : StageParams) :
    ∀ (ds : List Draw) (avail : List ℚ) (ready : ℚ),
    Dash.runStage ship s sp ds avail ready =
      Option.map (fun r => (r.1.map projEvent, r.2.1, r.2.2.1, r.2.2.2))
        (Gen.runStage ship s sp ds avail ready) := by
  intro ds
  induction ds with
  | nil => intro avail ready; rfl
  | cons d ds ih =>
      intro avail ready
      rw [Gen.runStage, Dash.runStage]
      by_cases hqc : d.qc_sample < sp.pass_rate
      · simp [hqc, projEvent]
      · simp only [hqc, decide_False, if_neg, Bool.false_eq_true, not_false_eq_true]
        rw [ih]
        cases Gen.runStage ship s sp ds
            (avail.set (argmin avail)
              (max ready (avail.getD (argmin avail) 0) + max 1 d.dur_sample
                + sp.mean_time_hours * (1/4)))
            (max ready (avail.getD (argmin avail) 0) + max 1 d.dur_sample
              + sp.mean_time_hours * (1/4)) with
        | none => rfl
        | some r => simp [projEvent]

theorem runStages_proj (ship : String) :
    ∀ (pairs : List ((String × StageParams) × List ℚ)) (ready : ℚ) (ds : List Draw),
    Dash.runStages ship pairs ready ds =
      Option.map (fun r => (r.1.map projEvent, r.2.1, r.2.2.1, r.2.2.2))
        (Gen.runStages ship pairs ready ds) := by
  intro pairs
  induction pairs with
  | nil => intro ready ds; rfl
  | cons p rest ih =>
      intro ready ds
      obtain ⟨⟨stage_name, sp⟩, avail⟩ := p
      rw [Gen.runStages, Dash.runStages, runStage_proj]
      cases Gen.runStage ship stage_name sp ds avail ready with
      | none => rfl
      | some r =>
          obtain ⟨evs, avail2, ready2, ds2⟩ := r
          cases hrest : Gen.runStages ship rest ready2 ds2 with
          | none => simp [ih, hrest]
          | some r2 =>
              obtain ⟨evs2, avails2, ready3, ds3⟩ := r2
              simp [ih, hrest]

theorem runShips_proj (stages : List (String × StageParams)) (start_date : ℚ) :
    ∀ (n i : ℕ) (avails : List (List ℚ)) (ds : List Draw),
    Dash.runShips stages start_date n i avails ds =
      Option.map (fun r => (r.1.map projEvent, r.2.1, r.2.2))
        (Gen.runShips stages start_date n i avails ds) := by
  intro n
  induction n with
  | zero => intro i avails ds; rfl
  | succ n ih =>
      intro i avails ds
      rw [Gen.runShips, Dash.runShips, runStages_proj]
      cases Gen.runStages (shipId i) (stages.zip avails) start_date ds with
      | none => rfl
      | some r =>
          obtain ⟨evs, avails2, ready2, ds2⟩ := r
          cases hrest : Gen.runShips stages start_date n (i + 1) avails2 ds2 with
          | none => simp [ih, hrest]
          | some r2 =>
              obtain ⟨evs2, avails3, ds3⟩ := r2
              simp [ih, hrest]

/-- C1: on identical configurations and identical random-draw streams,
the dashboard engine `run_simulation` produces exactly the projection of
the standalone engine `run_configurable_simulation`'s ledger onto the
common columns `ship_id, stage, start_time, end_time`, row for row and
in the same order; the standalone ledger only adds `station_id`,
`duration_hours`, `qc_passed` per event. -/
theorem run_simulation_refines_configurable (config : Option Config) (ds : List Draw) :
    run_simulation config ds =
      Option.map (List.map projEvent) (run_configurable_simulation config ds) := by
  cases config with
  | none => rfl
  | some cfg =>
      simp only [run_simulation, run_configurable_simulation]
      rw [runShips_proj]
      cases hr : Gen.runShips cfg.production_stages cfg.simulation_parameters.start_date
          cfg.simulation_parameters.num_starships 1
          (cfg.production_stages.map fun s =>
            List.replicate s.2.station_count cfg.simulation_parameters.start_date) ds with
      | none => rfl
      | some r =>
          obtain ⟨log, avails, rest⟩ := r
          rfl

/-- C2: on every non-empty stage availability array, station selection
(`np.argmin`) returns a valid index of a minimum-valued entry — the
selected station's availability never exceeds any other station's — and
when several stations tie at the minimum, the lowest such index is
returned (every earlier index holds a strictly larger value). -/
theorem argmin_selects_min (l : List ℚ) (hl : l ≠ []) :
    argmin l < l.length ∧
    (∀ k, k < l.length → l.getD (argmin l) 0 ≤ l.getD k 0) ∧
    (∀ k, k < argmin l → l.getD (argmin l) 0 < l.getD k 0) :=
  argmin_spec l hl

/-- Witness for C2 at the concrete array `[3, 1, 1, 5]`. -/
theorem argmin_selects_min_witness :
    ([3, 1, 1, 5] : List ℚ) ≠ [] ∧
    (argmin [3, 1, 1, 5] < ([3, 1, 1, 5] : List ℚ).length ∧
      (∀ k, k < ([3, 1, 1, 5] : List ℚ).length →
        ([3, 1, 1, 5] : List ℚ).getD (argmin [3, 1, 1, 5]) 0 ≤ ([3, 1, 1, 5] : List ℚ).getD k 0) ∧
      (∀ k, k < argmin [3, 1, 1, 5] →
        ([3, 1, 1, 5] : List ℚ).getD (argmin [3, 1, 1, 5]) 0 < ([3, 1, 1, 5] : List ℚ).getD k 0)) :=
  ⟨by decide, argmin_selects_min [3, 1, 1, 5] (by decide)⟩

/-- C3: when an attempt's QC sample fails, the engine emits the failed
event, sets the selected station's availability to
`end_time + mean_time_hours * 0.25` (the rework penalty is a fixed
multiplier of the stage mean, independent of the sampled duration),
sets the unit's ready time to that same value, and retries the stage by
recursing on the updated availability array — so the retry re-runs
station selection (`argmin`) on the updated array and may pick a
different station. -/
theorem qc_fail_rework (ship s : String) (sp : StageParams)
    (d : Draw) (ds : List Draw) (avail : List ℚ) (ready : ℚ)
    (hfail : ¬ d.qc_sample < sp.pass_rate) :
    Gen.runStage ship s sp (d :: ds) avail ready =
      (Gen.runStage ship s sp ds
          (avail.set (argmin avail)
            (max ready (avail.getD (argmin avail) 0) + max 1 d.dur_sample
              + sp.mean_time_hours * (1/4)))
          (max ready (avail.getD (argmin avail) 0) + max 1 d.dur_sample
            + sp.mean_time_hours * (1/4))).map
        (fun r =>
          (⟨ship, s, s ++ "_" ++ Nat.repr (argmin avail + 1),
              max ready (avail.getD (argmin avail) 0),
              max ready (avail.getD (argmin avail) 0) + max 1 d.dur_sample,
              round2 (max 1 d.dur_sample), false⟩ :: r.1, r.2)) := by
  rw [Gen.runStage]
  simp only [hfail, decide_False, Bool.false_eq_true, if_neg, not_false_eq_true]
  rcases hr : Gen.runStage ship s sp ds
      (avail.set (argmin avail)
        (max ready (avail.getD (argmin avail) 0) + max 1 d.dur_sample
          + sp.mean_time_hours * (1/4)))
      (max ready (avail.getD (argmin avail) 0) + max 1 d.dur_sample
        + sp.mean_time_hours * (1/4)) with _ | ⟨evs, a2, r2, ds2⟩ <;>
    simp [hr]

/-- Witness for C3: stage mean 10 hours, pass rate 1/2, QC sample 9/10
fails; two stations, both free at time 0. -/
theorem qc_fail_rework_witness :
    (¬ (9/10 : ℚ) < (1/2 : ℚ)) ∧
    Gen.runStage "SN101" "Welding" ⟨10, 2, 1/2, 2⟩
        (⟨10, 9/10⟩ :: [⟨12, 1/10⟩]) [0, 0] 0 =
      (Gen.runStage "SN101" "Welding" ⟨10, 2, 1/2, 2⟩ [⟨12, 1/10⟩]
          (List.set [0, 0] (argmin [0, 0])
            (max 0 (List.getD [0, 0] (argmin [0, 0]) 0) + max 1 (10:ℚ)
              + (10:ℚ) * (1/4)))
          (max 0 (List.getD [0, 0] (argmin [0, 0]) 0) + max 1 (10:ℚ)
            + (10:ℚ) * (1/4))).map
        (fun r =>
          (⟨"SN101", "Welding", "Welding" ++ "_" ++ Nat.repr (argmin [0, 0] + 1),
              max 0 (List.getD [0, 0] (argmin [0, 0]) 0),
              max 0 (List.getD [0, 0] (argmin [0, 0]) 0) + max 1 (10:ℚ),
              round2 (max 1 (10:ℚ)), false⟩ :: r.1, r.2)) :=
  ⟨by norm_num,
    qc_fail_rework "SN101" "Welding" ⟨10, 2, 1/2, 2⟩ ⟨10, 9/10⟩ [⟨12, 1/10⟩] [0, 0] 0
      (by norm_num)⟩


theorem runStage_duration (ship s : String) (sp : StageParams) :
    ∀ (ds : List Draw) (avail : List ℚ) (ready : ℚ)
      (evs : List Gen.Event) (a2 : List ℚ) (r2 : ℚ) (ds2 : List Draw),
    Gen.runStage ship s sp ds avail ready = some (evs, a2, r2, ds2) →
    ∀ e ∈ evs, 1 ≤ e.duration_hours := by
  intro ds
  induction ds with
  | nil => intro avail ready evs a2 r2 ds2 h; exact absurd h (by simp [Gen.runStage])
  | cons d ds ih =>
      intro avail ready evs a2 r2 ds2 h
      rw [Gen.runStage] at h
      by_cases hqc : d.qc_sample < sp.pass_rate
      · simp only [hqc, decide_True, if_true, Option.some.injEq, Prod.mk.injEq] at h
        obtain ⟨h1, h2, h3, h4⟩ := h
        intro e he
        rw [← h1] at he
        simp only [List.mem_singleton] at he
        subst he
        exact round2_ge_one _ (le_max_left 1 d.dur_sample)
      · simp only [hqc, decide_False, Bool.false_eq_true, if_neg,
          not_false_eq_true] at h
        rcases hr : Gen.runStage ship s sp ds
            (avail.set (argmin avail)
              (max ready (avail.getD (argmin avail) 0) + max 1 d.dur_sample
                + sp.mean_time_hours * (1/4)))
            (max ready (avail.getD (argmin avail) 0) + max 1 d.dur_sample
              + sp.mean_time_hours * (1/4)) with _ | ⟨evs', a2', r2', ds2'⟩
        · exact Option.noConfusion (hr ▸ h)
        · simp only [hr, Option.some.injEq, Prod.mk.injEq] at h
          obtain ⟨h1, h2, h3, h4⟩ := h
          intro e he
          rw [← h1] at he
          rcases List.mem_cons.mp he with he | he
          · subst he
            exact round2_ge_one _ (le_max_left 1 d.dur_sample)
          · exact ih _ _ _ _ _ _ hr e he

theorem runStages_duration (ship : String) :
    ∀ (pairs : List ((String × StageParams) × List ℚ)) (ready : ℚ) (ds : List Draw)
      (evs : List Gen.Event) (avails2 : List (List ℚ)) (r2 : ℚ) (ds2 : List Draw),
    Gen.runStages ship pairs ready ds = some (evs, avails2, r2, ds2) →
    ∀ e ∈ evs, 1 ≤ e.duration_hours := by
  intro pairs
  induction pairs with
  | nil =>
      intro ready ds evs avails2 r2 ds2 h
      simp only [Gen.runStages, Option.some.injEq, Prod.mk.injEq] at h
      obtain ⟨h1, h2⟩ := h
      rw [← h1]
      simp
  | cons p rest ih =>
      intro ready ds evs avails2 r2 ds2 h
      obtain ⟨⟨stage_name, sp⟩, avail⟩ := p
      rw [Gen.runStages] at h
      rcases h1 : Gen.runStage ship stage_name sp ds avail ready with
        _ | ⟨evs1, a1, r1, ds1⟩
      · simp only [h1] at h
        exact Option.noConfusion h
      · simp only [h1] at h
        rcases h2 : Gen.runStages ship rest r1 ds1 with _ | ⟨evs2, as2, rr2, dd2⟩
        · simp only [h2] at h
          exact Option.noConfusion h
        · simp only [h2, Option.some.injEq, Prod.mk.injEq] at h
          obtain ⟨hev, hrest⟩ := h
          intro e he
          rw [← hev] at he
          rcases List.mem_append.mp he with he | he
          · exact runStage_duration ship stage_name sp ds avail ready _ _ _ _ h1 e he
          · exact ih _ _ _ _ _ _ h2 e he

theorem runShips_duration (stages : List (String × StageParams)) (start_date : ℚ) :
    ∀ (n i : ℕ) (avails : List (List ℚ)) (ds : List Draw)
      (evs : List Gen.Event) (avails2 : List (List ℚ)) (ds2 : List Draw),
    Gen.runShips stages start_date n i avails ds = some (evs, avails2, ds2) →
    ∀ e ∈ evs, 1 ≤ e.duration_hours := by
  intro n
  induction n with
  | zero =>
      intro i avails ds evs avails2 ds2 h
      simp only [Gen.runShips, Option.some.injEq, Prod.mk.injEq] at h
      obtain ⟨h1, h2⟩ := h
      rw [← h1]
      simp
  | succ n ih =>
      intro i avails ds evs avails2 ds2 h
      rw [Gen.runShips] at h
      rcases h1 : Gen.runStages (shipId i) (stages.zip avails) start_date ds with
        _ | ⟨evs1, as1, r1, ds1⟩
      · simp only [h1] at h
        exact Option.noConfusion h
      · simp only [h1] at h
        rcases h2 : Gen.runShips stages start_date n (i + 1) as1 ds1 with
          _ | ⟨evs2, as2, dd2⟩
        · simp only [h2] at h
          exact Option.noConfusion h
        · simp only [h2, Option.some.injEq, Prod.mk.injEq] at h
          obtain ⟨hev, hrest⟩ := h
          intro e he
          rw [← hev] at he
          rcases List.mem_append.mp he with he | he
          · exact runStages_duration (shipId i) _ _ _ _ _ _ _ h1 e he
          · exact ih _ _ _ _ _ _ h2 e he

/-- C5: every event of a ledger produced by the standalone engine
records `duration_hours ≥ 1`: the normal sample is floored at 1 hour
(`max 1 ·`) before use, and the 2-decimal rounding applied when the
event is recorded preserves the bound.  (Proved for every stage
parameter vector, so in particular for all valid ones.) -/
theorem duration_hours_ge_one (config : Config) (ds : List Draw)
    (log : List Gen.Event)
    (hrun : run_configurable_simulation (some config) ds = some log) :
    ∀ e ∈ log, 1 ≤ e.duration_hours := by
  rw [run_configurable_simulation] at hrun
  rcases h1 : Gen.runShips config.production_stages
      config.simulation_parameters.start_date
      config.simulation_parameters.num_starships 1
      (config.production_stages.map fun s =>
        List.replicate s.2.station_count config.simulation_parameters.start_date)
      ds with _ | ⟨evs, as2, ds2⟩
  · simp only [h1] at hrun
    exact Option.noConfusion hrun
  · simp only [h1, Option.some.injEq] at hrun
    rw [← hrun]
    exact runShips_duration _ _ _ _ _ _ _ _ _ h1

/-- Witness for C5: one ship, one stage, a passing draw whose duration
sample `1/2` is below the floor; the recorded duration is `1`. -/
theorem duration_hours_ge_one_witness :
    run_configurable_simulation
        (some { simulation_parameters := { start_date := 0, num_starships := 1 },
                production_stages := [("Welding", ⟨10, 2, 1, 1⟩)] })
        [⟨1/2, 0⟩] =
      some [⟨"SN101", "Welding", "Welding_1", 0, 1, 1, true⟩] ∧
    ∀ e ∈ [(⟨"SN101", "Welding", "Welding_1", 0, 1, 1, true⟩ : Gen.Event)],
      1 ≤ e.duration_hours := by
  have hrun : run_configurable_simulation
      (some { simulation_parameters := { start_date := 0, num_starships := 1 },
              production_stages := [("Welding", ⟨10, 2, 1, 1⟩)] })
      [⟨1/2, 0⟩] =
      some [⟨"SN101", "Welding", "Welding_1", 0, 1, 1, true⟩] := by
    simp [run_configurable_simulation, Gen.runShips, Gen.runStages, Gen.runStage,
      argmin, argminAux, round2, rhe, shipId]
    norm_num
    decide
  exact ⟨hrun,
    duration_hours_ge_one
      { simulation_parameters := { start_date := 0, num_starships := 1 },
        production_stages := [("Welding", ⟨10, 2, 1, 1⟩)] }
      [⟨1/2, 0⟩] _ hrun⟩

theorem listLe_refl (a : List ℚ) : listLe a a :=
  ⟨rfl, fun _ _ => le_refl _⟩

theorem listLe_trans {a b c : List ℚ} (h1 : listLe a b) (h2 : listLe b c) :
    listLe a c := by
  obtain ⟨hl1, hk1⟩ := h1
  obtain ⟨hl2, hk2⟩ := h2
  refine ⟨hl1.trans hl2, fun k hk => ?_⟩
  exact le_trans (hk1 k hk) (hk2 k (hl1 ▸ hk))

theorem listLe_set (l : List ℚ) (i : ℕ) (v : ℚ) (h : l.getD i 0 ≤ v) :
    listLe l (l.set i v) := by
  refine ⟨(List.length_set l i v).symm, fun k hk => ?_⟩
  by_cases hik : i = k
  · subst hik
    simp only [List.getD_eq_getElem?_getD, List.getElem?_set_self hk]
    simpa [List.getD_eq_getElem?_getD] using h
  · simp only [List.getD_eq_getElem?_getD, List.getElem?_set_ne hik]
    exact le_refl _

theorem forall₂_listLe_trans {a b c : List (List ℚ)}
    (h1 : List.Forall₂ listLe a b) (h2 : List.Forall₂ listLe b c) :
    List.Forall₂ listLe a c := by
  induction h1 generalizing c with
  | nil => cases h2; exact List.Forall₂.nil
  | cons hab h1 ih =>
      cases h2 with
      | cons hbc h2 => exact List.Forall₂.cons (listLe_trans hab hbc) (ih h2)

theorem runStage_avail_le (ship s : String) (sp : StageParams)
    (hm : 0 ≤ sp.mean_time_hours) :
    ∀ (ds : List Draw) (avail : List ℚ) (ready : ℚ)
      (evs : List Gen.Event) (a2 : List ℚ) (r2 : ℚ) (ds2 : List Draw),
    Gen.runStage ship s sp ds avail ready = some (evs, a2, r2, ds2) →
    listLe avail a2 := by
  intro ds
  induction ds with
  | nil => intro avail ready evs a2 r2 ds2 h; exact absurd h (by simp [Gen.runStage])
  | cons d ds ih =>
      intro avail ready evs a2 r2 ds2 h
      rw [Gen.runStage] at h
      have hsel : avail.getD (argmin avail) 0
          ≤ max ready (avail.getD (argmin avail) 0) + max 1 d.dur_sample := by
        have h1 : avail.getD (argmin avail) 0 ≤ max ready (avail.getD (argmin avail) 0) :=
          le_max_right _ _
        have h2 : (0 : ℚ) ≤ max 1 d.dur_sample :=
          le_trans zero_le_one (le_max_left _ _)
        linarith
      by_cases hqc : d.qc_sample < sp.pass_rate
      · simp only [hqc, decide_True, if_true, Option.some.injEq, Prod.mk.injEq] at h
        obtain ⟨h1, h2, h3, h4⟩ := h
        rw [← h2]
        exact listLe_set _ _ _ hsel
      · simp only [hqc, decide_False, Bool.false_eq_true, if_neg,
          not_false_eq_true] at h
        rcases hr : Gen.runStage ship s sp ds
            (avail.set (argmin avail)
              (max ready (avail.getD (argmin avail) 0) + max 1 d.dur_sample
                + sp.mean_time_hours * (1/4)))
            (max ready (avail.getD (argmin avail) 0) + max 1 d.dur_sample
              + sp.mean_time_hours * (1/4)) with _ | ⟨evs', a2', r2', ds2'⟩
        · exact Option.noConfusion (hr ▸ h)
        · simp only [hr, Option.some.injEq, Prod.mk.injEq] at h
          obtain ⟨h1, h2, h3, h4⟩ := h
          rw [← h2]
          refine listLe_trans (listLe_set _ _ _ ?_) (ih _ _ _ _ _ _ hr)
          nlinarith [hsel]

theorem runStages_avail_le (ship : String) :
    ∀ (pairs : List ((String × StageParams) × List ℚ)) (ready : ℚ) (ds : List Draw)
      (evs : List Gen.Event) (avails2 : List (List ℚ)) (r2 : ℚ) (ds2 : List Draw),
    (∀ p ∈ pairs, 0 ≤ p.1.2.mean_time_hours) →
    Gen.runStages ship pairs ready ds = some (evs, avails2, r2, ds2) →
    List.Forall₂ (fun p a => listLe p.2 a) pairs avails2 := by
  intro pairs
  induction pairs with
  | nil =>
      intro ready ds evs avails2 r2 ds2 hm h
      simp only [Gen.runStages, Option.some.injEq, Prod.mk.injEq] at h
      obtain ⟨h1, h2, h3⟩ := h
      rw [← h2]
      exact List.Forall₂.nil
  | cons p rest ih =>
      intro ready ds evs avails2 r2 ds2 hm h
      obtain ⟨⟨stage_name, sp⟩, avail⟩ := p
      rw [Gen.runStages] at h
      rcases h1 : Gen.runStage ship stage_name sp ds avail ready with
        _ | ⟨evs1, a1, r1, ds1⟩
      · simp only [h1] at h
        exact Option.noConfusion h
      · simp only [h1] at h
        rcases h2 : Gen.runStages ship rest r1 ds1 with _ | ⟨evs2, as2, rr2, dd2⟩
        · simp only [h2] at h
          exact Option.noConfusion h
        · simp only [h2, Option.some.injEq, Prod.mk.injEq] at h
          obtain ⟨hev, hav, hr3⟩ := h
          rw [← hav]
          refine List.Forall₂.cons ?_ ?_
          · exact runStage_avail_le ship stage_name sp
              (hm _ (List.mem_cons_self _ _)) _ _ _ _ _ _ _ h1
          · exact ih _ _ _ _ _ _ (fun q hq => hm q (List.mem_cons_of_mem _ hq)) h2

theorem forall₂_zip_listLe {stages : List (String × StageParams)} :
    ∀ {avails as1 : List (List ℚ)},
    avails.length = stages.length →
    List.Forall₂ (fun p a => listLe p.2 a) (stages.zip avails) as1 →
    List.Forall₂ listLe avails as1 := by
  induction stages with
  | nil =>
      intro avails as1 hlen h
      cases avails with
      | nil => cases h; exact List.Forall₂.nil
      | cons a t => simp at hlen
  | cons s rest ih =>
      intro avails as1 hlen h
      cases avails with
      | nil => simp at hlen
      | cons a avs =>
          simp only [List.zip_cons_cons] at h
          cases h with
          | cons hha htl =>
              exact List.Forall₂.cons hha (ih (by simpa using hlen) htl)

theorem runShips_avail_le (stages : List (String × StageParams)) (start_date : ℚ)
    (hm : ∀ p ∈ stages, 0 ≤ p.2.mean_time_hours) :
    ∀ (n i : ℕ) (avails : List (List ℚ)) (ds : List Draw)
      (evs : List Gen.Event) (avails2 : List (List ℚ)) (ds2 : List Draw),
    avails.length = stages.length →
    Gen.runShips stages start_date n i avails ds = some (evs, avails2, ds2) →
    List.Forall₂ listLe avails avails2 := by
  intro n
  induction n with
  | zero =>
      intro i avails ds evs avails2 ds2 hlen h
      simp only [Gen.runShips, Option.some.injEq, Prod.mk.injEq] at h
      obtain ⟨h1, h2, h3⟩ := h
      rw [← h2]
      exact List.forall₂_same.mpr fun a _ => listLe_refl a
  | succ n ih =>
      intro i avails ds evs avails2 ds2 hlen h
      rw [Gen.runShips] at h
      rcases h1 : Gen.runStages (shipId i) (stages.zip avails) start_date ds with
        _ | ⟨evs1, as1, r1, ds1⟩
      · simp only [h1] at h
        exact Option.noConfusion h
      · simp only [h1] at h
        rcases h2 : Gen.runShips stages start_date n (i + 1) as1 ds1 with
          _ | ⟨evs2, as2, dd2⟩
        · simp only [h2] at h
          exact Option.noConfusion h
        · simp only [h2, Option.some.injEq, Prod.mk.injEq] at h
          obtain ⟨hev, hav, hr3⟩ := h
          rw [← hav]
          have hzip : ∀ p ∈ stages.zip avails, 0 ≤ p.1.2.mean_time_hours :=
            fun p hp => hm p.1 (List.of_mem_zip hp).1
          have hstep : List.Forall₂ listLe avails as1 :=
            forall₂_zip_listLe hlen (runStages_avail_le _ _ _ _ _ _ _ _ hzip h1)
          have hlen1 : as1.length = stages.length := by
            have := hstep.length_eq
            omega
          exact forall₂_listLe_trans hstep (ih _ _ _ _ _ _ hlen1 h2)

/-- C6: over a whole simulation run (all ships, all stages), every
station's availability entry is non-decreasing: the final availability
state pointwise dominates the initial one, and each value the loop
writes (`end_time` on QC pass, `end_time + mean_time_hours * 0.25` on
QC fail) is at least the selected station's overwritten value. -/
theorem station_availability_nondecreasing
    (stages : List (String × StageParams)) (start_date : ℚ)
    (n i : ℕ) (avails : List (List ℚ)) (ds : List Draw)
    (evs : List Gen.Event) (avails2 : List (List ℚ)) (ds2 : List Draw)
    (hm : ∀ p ∈ stages, 0 ≤ p.2.mean_time_hours)
    (hlen : avails.length = stages.length)
    (hrun : Gen.runShips stages start_date n i avails ds = some (evs, avails2, ds2)) :
    availsLe avails avails2 ∧
    ∀ p ∈ stages, ∀ (avail : List ℚ) (ready : ℚ) (d : Draw),
      avail.getD (argmin avail) 0
          ≤ max ready (avail.getD (argmin avail) 0) + max 1 d.dur_sample ∧
      avail.getD (argmin avail) 0
          ≤ max ready (avail.getD (argmin avail) 0) + max 1 d.dur_sample
            + p.2.mean_time_hours * (1/4) := by
  constructor
  · exact runShips_avail_le stages start_date hm n i avails ds evs avails2 ds2
      hlen hrun
  · intro p hp avail ready d
    have h1 : avail.getD (argmin avail) 0 ≤ max ready (avail.getD (argmin avail) 0) :=
      le_max_right _ _
    have h2 : (0 : ℚ) ≤ max 1 d.dur_sample :=
      le_trans zero_le_one (le_max_left _ _)
    have h3 : 0 ≤ p.2.mean_time_hours := hm p hp
    constructor <;> nlinarith

/-- Witness for C6: one stage with one station, one ship, one passing
draw; the station's availability moves from `0` to `2`. -/
theorem station_availability_nondecreasing_witness :
    (∀ p ∈ [("Welding", (⟨10, 2, 1, 1⟩ : StageParams))], 0 ≤ p.2.mean_time_hours) ∧
    ([[(0:ℚ)]] : List (List ℚ)).length
        = [("Welding", (⟨10, 2, 1, 1⟩ : StageParams))].length ∧
    Gen.runShips [("Welding", ⟨10, 2, 1, 1⟩)] 0 1 1 [[0]] [⟨2, 0⟩] =
      some ([⟨"SN101", "Welding", "Welding_1", 0, 2, 2, true⟩], [[2]], []) ∧
    (availsLe [[0]] [[2]] ∧
      ∀ p ∈ [("Welding", (⟨10, 2, 1, 1⟩ : StageParams))],
        ∀ (avail : List ℚ) (ready : ℚ) (d : Draw),
        avail.getD (argmin avail) 0
            ≤ max ready (avail.getD (argmin avail) 0) + max 1 d.dur_sample ∧
        avail.getD (argmin avail) 0
            ≤ max ready (avail.getD (argmin avail) 0) + max 1 d.dur_sample
              + p.2.mean_time_hours * (1/4)) := by
  have hm : ∀ p ∈ [("Welding", (⟨10, 2, 1, 1⟩ : StageParams))],
      0 ≤ p.2.mean_time_hours := by norm_num
  have hlen : ([[(0:ℚ)]] : List (List ℚ)).length
      = [("Welding", (⟨10, 2, 1, 1⟩ : StageParams))].length := rfl
  have hrun : Gen.runShips [("Welding", ⟨10, 2, 1, 1⟩)] 0 1 1 [[0]] [⟨2, 0⟩] =
      some ([⟨"SN101", "Welding", "Welding_1", 0, 2, 2, true⟩], [[2]], []) := by
    simp [Gen.runShips, Gen.runStages, Gen.runStage, argmin, argminAux,
      round2, rhe, shipId]
    norm_num
    decide
  exact ⟨hm, hlen, hrun,
    station_availability_nondecreasing [("Welding", ⟨10, 2, 1, 1⟩)] 0 1 1
      [[0]] [⟨2, 0⟩] _ _ _ hm hlen hrun⟩

/-- C7: the KPI calculator filters the ledger to the terminal stage's
rows, counts distinct ship identifiers there, computes the makespan in
days over the whole ledger (all stages), and returns
`throughput = total_units / (makespan_days / 7)` guarded to `0`;
the throughput component is `0` whenever the makespan is `≤ 0` or the
ledger is empty. -/
theorem calculate_kpis_spec (df : List Dash.Event) :
    (df = [] → calculate_kpis df = (0, 0, 0)) ∧
    (daysOf (listMax (df.map fun e => e.end_time)
        - listMin (df.map fun e => e.start_time)) ≤ 0 →
      (calculate_kpis df).2.1 = 0) ∧
    (df ≠ [] → df.filter (fun e => e.stage == "Final_Checkout") ≠ [] →
      calculate_kpis df =
        (((df.filter (fun e => e.stage == "Final_Checkout")).map
            fun e => e.ship_id).dedup.length,
          if 0 < daysOf (listMax (df.map fun e => e.end_time)
              - listMin (df.map fun e => e.start_time)) then
            ((((df.filter (fun e => e.stage == "Final_Checkout")).map
                fun e => e.ship_id).dedup.length : ℚ))
              / ((daysOf (listMax (df.map fun e => e.end_time)
                  - listMin (df.map fun e => e.start_time)) : ℚ) / 7)
          else 0,
          daysOf (listMax (df.map fun e => e.end_time)
            - listMin (df.map fun e => e.start_time)))) := by
  refine ⟨?_, ?_, ?_⟩
  · intro h
    subst h
    rfl
  · intro hts
    rw [calculate_kpis]
    dsimp only
    split
    · rfl
    · split
      · rfl
      · dsimp only
        rw [if_neg (by omega)]
  · intro hne hfc
    rw [calculate_kpis]
    rw [if_neg (by simpa [List.isEmpty_iff] using hne),
      if_neg (by simpa [List.isEmpty_iff] using hfc)]

/-- Witness for C7: the empty ledger, and a one-row terminal-stage
ledger spanning two days. -/
theorem calculate_kpis_spec_witness :
    (([] : List Dash.Event) = [] → calculate_kpis [] = (0, 0, 0)) ∧
    calculate_kpis [] = (0, 0, 0) ∧
    ([(⟨"SN101", "Final_Checkout", 0, 48⟩ : Dash.Event)] ≠ []) ∧
    ([(⟨"SN101", "Final_Checkout", 0, 48⟩ : Dash.Event)].filter
        (fun e => e.stage == "Final_Checkout") ≠ []) ∧
    calculate_kpis [(⟨"SN101", "Final_Checkout", 0, 48⟩ : Dash.Event)] =
      ((([(⟨"SN101", "Final_Checkout", 0, 48⟩ : Dash.Event)].filter
          (fun e => e.stage == "Final_Checkout")).map
            fun e => e.ship_id).dedup.length,
        if 0 < daysOf (listMax
              ([(⟨"SN101", "Final_Checkout", 0, 48⟩ : Dash.Event)].map
                fun e => e.end_time)
            - listMin ([(⟨"SN101", "Final_Checkout", 0, 48⟩ : Dash.Event)].map
                fun e => e.start_time)) then
          (((([(⟨"SN101", "Final_Checkout", 0, 48⟩ : Dash.Event)].filter
              (fun e => e.stage == "Final_Checkout")).map
                fun e => e.ship_id).dedup.length : ℚ))
            / ((daysOf (listMax
                  ([(⟨"SN101", "Final_Checkout", 0, 48⟩ : Dash.Event)].map
                    fun e => e.end_time)
                - listMin ([(⟨"SN101", "Final_Checkout", 0, 48⟩ : Dash.Event)].map
                    fun e => e.start_time)) : ℚ) / 7)
        else 0,
        daysOf (listMax ([(⟨"SN101", "Final_Checkout", 0, 48⟩ : Dash.Event)].map
              fun e => e.end_time)
          - listMin ([(⟨"SN101", "Final_Checkout", 0, 48⟩ : Dash.Event)].map
              fun e => e.start_time))) :=
  ⟨(calculate_kpis_spec []).1,
    (calculate_kpis_spec []).1 rfl,
    by decide,
    by decide,
    (calculate_kpis_spec [⟨"SN101", "Final_Checkout", 0, 48⟩]).2.2
      (by decide) (by decide)⟩

/-- C10: on any non-empty ledger with no row whose stage is the literal
string `Final_Checkout`, the KPI calculator returns `(0, 0, 0)` no
matter what other events are present; the terminal-stage name is a
fixed constant inside `calculate_kpis`, which takes no configuration
argument at all. -/
theorem kpis_zero_without_final_checkout (df : List Dash.Event)
    (hne : df ≠ []) (hfc : ∀ e ∈ df, e.stage ≠ "Final_Checkout") :
    calculate_kpis df = (0, 0, 0) := by
  rw [calculate_kpis, if_neg (by simpa [List.isEmpty_iff] using hne)]
  rw [if_pos]
  rw [List.isEmpty_iff]
  rw [List.filter_eq_nil]
  intro e he
  simpa using hfc e he

/-- Witness for C10: a one-row ledger whose only stage is `Welding`. -/
theorem kpis_zero_without_final_checkout_witness :
    ([(⟨"SN101", "Welding", 0, 10⟩ : Dash.Event)] ≠ []) ∧
    (∀ e ∈ [(⟨"SN101", "Welding", 0, 10⟩ : Dash.Event)],
      e.stage ≠ "Final_Checkout") ∧
    calculate_kpis [(⟨"SN101", "Welding", 0, 10⟩ : Dash.Event)] = (0, 0, 0) :=
  ⟨by decide, by decide,
    kpis_zero_without_final_checkout [⟨"SN101", "Welding", 0, 10⟩]
      (by decide) (by decide)⟩

/-- C8: a falsy (absent or empty) configuration short-circuits both
engines to an empty ledger without entering the ship loop; a present
configuration's result is exactly the ship loop's completed ledger. -/
theorem config_guard (ds : List Draw) :
    run_configurable_simulation none ds = some [] ∧
    run_simulation none ds = some [] ∧
    ∀ (cfg : Config) (log : List Gen.Event),
      (run_configurable_simulation (some cfg) ds = some log ↔
        ∃ avails2 ds2, Gen.runShips cfg.production_stages
            cfg.simulation_parameters.start_date
            cfg.simulation_parameters.num_starships 1
            (cfg.production_stages.map fun s =>
              List.replicate s.2.station_count cfg.simulation_parameters.start_date)
            ds = some (log, avails2, ds2)) := by
  refine ⟨rfl, rfl, fun cfg log => ?_⟩
  rw [run_configurable_simulation]
  rcases h1 : Gen.runShips cfg.production_stages
      cfg.simulation_parameters.start_date
      cfg.simulation_parameters.num_starships 1
      (cfg.production_stages.map fun s =>
        List.replicate s.2.station_count cfg.simulation_parameters.start_date)
      ds with _ | ⟨evs, as2, ds2⟩
  · simp [h1]
  · simp only [h1, Option.some.injEq, Prod.mk.injEq]
    constructor
    · rintro rfl
      exact ⟨as2, ds2, rfl, rfl, rfl⟩
    · rintro ⟨a2, d2, h2, h3, h4⟩
      exact h2

/-- C9: each engine is a pure function of the configuration and the
random-draw stream — two runs from identical generator states (equal
streams feeding both the duration and QC draws) produce identical
ledgers. -/
theorem run_deterministic (config : Option Config) (ds1 ds2 : List Draw)
    (h : ds1 = ds2) :
    run_configurable_simulation config ds1 = run_configurable_simulation config ds2 ∧
    run_simulation config ds1 = run_simulation config ds2 := by
  subst h
  exact ⟨rfl, rfl⟩

/-- Witness for C9 at a concrete configuration and stream. -/
theorem run_deterministic_witness :
    ([(⟨2, 0⟩ : Draw)] = [(⟨2, 0⟩ : Draw)]) ∧
    run_configurable_simulation
        (some { simulation_parameters := { start_date := 0, num_starships := 1 },
                production_stages := [("Welding", ⟨10, 2, 1, 1⟩)] })
        [⟨2, 0⟩]
      = run_configurable_simulation
        (some { simulation_parameters := { start_date := 0, num_starships := 1 },
                production_stages := [("Welding", ⟨10, 2, 1, 1⟩)] })
        [⟨2, 0⟩] ∧
    run_simulation
        (some { simulation_parameters := { start_date := 0, num_starships := 1 },
                production_stages := [("Welding", ⟨10, 2, 1, 1⟩)] })
        [⟨2, 0⟩]
      = run_simulation
        (some { simulation_parameters := { start_date := 0, num_starships := 1 },
                production_stages := [("Welding", ⟨10, 2, 1, 1⟩)] })
        [⟨2, 0⟩] :=
  ⟨rfl,
    run_deterministic
      (some { simulation_parameters := { start_date := 0, num_starships := 1 },
              production_stages := [("Welding", ⟨10, 2, 1, 1⟩)] })
      [⟨2, 0⟩] [⟨2, 0⟩] rfl⟩

theorem digitChar_inj_lt :
    ∀ a, a < 10 → ∀ b, b < 10 → Nat.digitChar a = Nat.digitChar b → a = b := by
  decide

theorem map_digitChar_inj :
    ∀ (l1 l2 : List ℕ), (∀ d ∈ l1, d < 10) → (∀ d ∈ l2, d < 10) →
    l1.map Nat.digitChar = l2.map Nat.digitChar → l1 = l2 := by
  intro l1
  induction l1 with
  | nil =>
      intro l2 h1 h2 h
      cases l2 with
      | nil => rfl
      | cons b t => simp at h
  | cons a t ih =>
      intro l2 h1 h2 h
      cases l2 with
      | nil => simp at h
      | cons b t2 =>
          simp only [List.map_cons, List.cons.injEq] at h
          obtain ⟨hab, ht⟩ := h
          have ha : a < 10 := h1 a (List.mem_cons_self _ _)
          have hb : b < 10 := h2 b (List.mem_cons_self _ _)
          rw [digitChar_inj_lt a ha b hb hab,
            ih t2 (fun d hd => h1 d (List.mem_cons_of_mem _ hd))
              (fun d hd => h2 d (List.mem_cons_of_mem _ hd)) ht]

theorem toDigitsCore_eq :
    ∀ (fuel n : ℕ) (ds : List Char), 0 < n → n ≤ fuel →
    Nat.toDigitsCore 10 fuel n ds
      = ((Nat.digits 10 n).map Nat.digitChar).reverse ++ ds := by
  intro fuel
  induction fuel with
  | zero => intro n ds h1 h2; omega
  | succ fuel ih =>
      intro n ds h1 h2
      rw [Nat.toDigitsCore]
      by_cases hq : n / 10 = 0
      · rw [if_pos hq]
        have hn10 : n < 10 := (Nat.div_eq_zero_iff (by norm_num)).mp hq
        rw [Nat.digits_def' (by norm_num : 1 < 10) h1, hq]
        simp [Nat.mod_eq_of_lt hn10]
      · rw [if_neg hq]
        have hq1 : 0 < n / 10 := Nat.pos_of_ne_zero hq
        have hlt : n / 10 < n := Nat.div_lt_self h1 (by norm_num)
        rw [ih (n / 10) _ hq1 (by omega)]
        rw [Nat.digits_def' (by norm_num : 1 < 10) h1]
        simp

theorem toDigits_eq (n : ℕ) (h : 0 < n) :
    Nat.toDigits 10 n = ((Nat.digits 10 n).map Nat.digitChar).reverse := by
  rw [Nat.toDigits, toDigitsCore_eq (n + 1) n [] h (by omega), List.append_nil]

theorem toDigits_ne_zero_list (n : ℕ) (h : 0 < n) :
    Nat.toDigits 10 n ≠ ['0'] := by
  rw [toDigits_eq n h]
  intro hc
  have hrev : (Nat.digits 10 n).map Nat.digitChar = ['0'] := by
    have := congrArg List.reverse hc
    simpa using this
  have hdig : Nat.digits 10 n = [0] := by
    have h0 : (0 : ℕ) < 10 := by norm_num
    rcases hd : Nat.digits 10 n with _ | ⟨d, rest⟩
    · rw [hd] at hrev; simp at hrev
    · rw [hd] at hrev
      simp only [List.map_cons, List.cons.injEq] at hrev
      obtain ⟨hhd, htl⟩ := hrev
      have hrest : rest = [] := by
        cases rest with
        | nil => rfl
        | cons x y => simp at htl
      subst hrest
      have hd10 : d < 10 :=
        Nat.digits_lt_base (by norm_num) (hd ▸ List.mem_cons_self d [])
      have : d = 0 := digitChar_inj_lt d hd10 0 (by norm_num) hhd
      rw [this]
  have hofd : n = Nat.ofDigits 10 (Nat.digits 10 n) :=
    (Nat.ofDigits_digits 10 n).symm
  rw [hdig] at hofd
  simp [Nat.ofDigits] at hofd
  omega

theorem nat_repr_injective : ∀ m n : ℕ, Nat.repr m = Nat.repr n → m = n := by
  intro m n h
  have hdata : Nat.toDigits 10 m = Nat.toDigits 10 n := by
    have := congrArg String.data h
    simpa [Nat.repr, List.asString] using this
  rcases Nat.eq_zero_or_pos m with hm | hm
  · rcases Nat.eq_zero_or_pos n with hn | hn
    · omega
    · subst hm
      exact absurd hdata.symm (toDigits_ne_zero_list n hn)
  · rcases Nat.eq_zero_or_pos n with hn | hn
    · subst hn
      exact absurd hdata (toDigits_ne_zero_list m hm)
    · rw [toDigits_eq m hm, toDigits_eq n hn] at hdata
      have hmap : (Nat.digits 10 m).map Nat.digitChar
          = (Nat.digits 10 n).map Nat.digitChar :=
        List.reverse_injective hdata
      have hdig : Nat.digits 10 m = Nat.digits 10 n :=
        map_digitChar_inj _ _
          (fun d hd => Nat.digits_lt_base (by norm_num) hd)
          (fun d hd => Nat.digits_lt_base (by norm_num) hd) hmap
      exact Nat.digits_inj_iff.mp hdig

theorem shipId_injective : ∀ i j : ℕ, shipId i = shipId j → i = j := by
  intro i j h
  have hdata : ("SN" ++ Nat.repr (100 + i)).data = ("SN" ++ Nat.repr (100 + j)).data :=
    congrArg String.data h
  rw [String.data_append, String.data_append] at hdata
  have hrepr : (Nat.repr (100 + i)).data = (Nat.repr (100 + j)).data :=
    List.append_cancel_left hdata
  have := nat_repr_injective (100 + i) (100 + j) (String.ext hrepr)
  omega

theorem runStage_events (ship s : String) (sp : StageParams) :
    ∀ (ds : List Draw) (avail : List ℚ) (ready : ℚ)
      (evs : List Gen.Event) (a2 : List ℚ) (r2 : ℚ) (ds2 : List Draw),
    Gen.runStage ship s sp ds avail ready = some (evs, a2, r2, ds2) →
    (∀ e ∈ evs, e.ship_id = ship ∧ e.stage = s) ∧
    ∃ pre last, evs = pre ++ [last] ∧ (∀ e ∈ pre, e.qc_passed = false) ∧
      last.qc_passed = true := by
  intro ds
  induction ds with
  | nil => intro avail ready evs a2 r2 ds2 h; exact absurd h (by simp [Gen.runStage])
  | cons d ds ih =>
      intro avail ready evs a2 r2 ds2 h
      rw [Gen.runStage] at h
      by_cases hqc : d.qc_sample < sp.pass_rate
      · simp only [hqc, decide_True, if_true, Option.some.injEq, Prod.mk.injEq] at h
        obtain ⟨h1, h2, h3, h4⟩ := h
        rw [← h1]
        refine ⟨?_, [], _, rfl, by simp, by simp⟩
        intro e he
        simp only [List.mem_singleton] at he
        subst he
        exact ⟨rfl, rfl⟩
      · simp only [hqc, decide_False, Bool.false_eq_true, if_neg,
          not_false_eq_true] at h
        rcases hr : Gen.runStage ship s sp ds
            (avail.set (argmin avail)
              (max ready (avail.getD (argmin avail) 0) + max 1 d.dur_sample
                + sp.mean_time_hours * (1/4)))
            (max ready (avail.getD (argmin avail) 0) + max 1 d.dur_sample
              + sp.mean_time_hours * (1/4)) with _ | ⟨evs', a2', r2', ds2'⟩
        · exact Option.noConfusion (hr ▸ h)
        · simp only [hr, Option.some.injEq, Prod.mk.injEq] at h
          obtain ⟨h1, h2, h3, h4⟩ := h
          obtain ⟨hmem, pre', last, hsh, hpre, hlast⟩ := ih _ _ _ _ _ _ hr
          rw [← h1]
          refine ⟨?_, _ :: pre', last, by rw [hsh]; rfl, ?_, hlast⟩
          · intro e he
            rcases List.mem_cons.mp he with he | he
            · subst he; exact ⟨rfl, rfl⟩
            · exact hmem e he
          · intro e he
            rcases List.mem_cons.mp he with he | he
            · subst he
              simp [hqc]
            · exact hpre e he

theorem runStages_length (ship : String) :
    ∀ (pairs : List ((String × StageParams) × List ℚ)) (ready : ℚ) (ds : List Draw)
      (evs : List Gen.Event) (avails2 : List (List ℚ)) (r2 : ℚ) (ds2 : List Draw),
    Gen.runStages ship pairs ready ds = some (evs, avails2, r2, ds2) →
    avails2.length = pairs.length := by
  intro pairs
  induction pairs with
  | nil =>
      intro ready ds evs avails2 r2 ds2 h
      simp only [Gen.runStages, Option.some.injEq, Prod.mk.injEq] at h
      obtain ⟨h1, h2, h3⟩ := h
      rw [← h2]
      rfl
  | cons p rest ih =>
      intro ready ds evs avails2 r2 ds2 h
      obtain ⟨⟨stage_name, sp⟩, avail⟩ := p
      rw [Gen.runStages] at h
      rcases h1 : Gen.runStage ship stage_name sp ds avail ready with
        _ | ⟨evs1, a1, r1, ds1⟩
      · simp only [h1] at h
        exact Option.noConfusion h
      · simp only [h1] at h
        rcases h2 : Gen.runStages ship rest r1 ds1 with _ | ⟨evs2, as2, rr2, dd2⟩
        · simp only [h2] at h
          exact Option.noConfusion h
        · simp only [h2, Option.some.injEq, Prod.mk.injEq] at h
          obtain ⟨hev, hav, hr3⟩ := h
          rw [← hav]
          simpa using ih _ _ _ _ _ _ h2

theorem runStages_events (ship : String) (s : String) :
    ∀ (pairs : List ((String × StageParams) × List ℚ)) (ready : ℚ) (ds : List Draw)
      (evs : List Gen.Event) (avails2 : List (List ℚ)) (r2 : ℚ) (ds2 : List Draw),
    Gen.runStages ship pairs ready ds = some (evs, avails2, r2, ds2) →
    (∀ e ∈ evs, e.ship_id = ship ∧ e.stage ∈ pairs.map fun p => p.1.1) ∧
    ((pairs.map fun p => p.1.1).Nodup → s ∈ pairs.map (fun p => p.1.1) →
      ∃ pre last,
        evs.filter (fun e => decide (e.stage = s)) = pre ++ [last] ∧
        (∀ e ∈ pre, e.qc_passed = false) ∧ last.qc_passed = true) := by
  intro pairs
  induction pairs with
  | nil =>
      intro ready ds evs avails2 r2 ds2 h
      simp only [Gen.runStages, Option.some.injEq, Prod.mk.injEq] at h
      obtain ⟨h1, h2, h3⟩ := h
      rw [← h1]
      exact ⟨by simp, by simp⟩
  | cons p rest ih =>
      intro ready ds evs avails2 r2 ds2 h
      obtain ⟨⟨s0, sp0⟩, avail⟩ := p
      rw [Gen.runStages] at h
      rcases h1 : Gen.runStage ship s0 sp0 ds avail ready with
        _ | ⟨evs1, a1, r1, ds1⟩
      · simp only [h1] at h
        exact Option.noConfusion h
      · simp only [h1] at h
        rcases h2 : Gen.runStages ship rest r1 ds1 with _ | ⟨evs2, as2, rr2, dd2⟩
        · simp only [h2] at h
          exact Option.noConfusion h
        · simp only [h2, Option.some.injEq, Prod.mk.injEq] at h
          obtain ⟨hev, hav, hr3⟩ := h
          obtain ⟨hmem1, hshape1⟩ := runStage_events ship s0 sp0 _ _ _ _ _ _ _ h1
          obtain ⟨hmem2, hshape2⟩ := ih _ _ _ _ _ _ h2
          subst hev
          constructor
          · intro e he
            rcases List.mem_append.mp he with he | he
            · exact ⟨(hmem1 e he).1, by simp [(hmem1 e he).2]⟩
            · refine ⟨(hmem2 e he).1, ?_⟩
              simp only [List.map_cons, List.mem_cons]
              exact Or.inr (hmem2 e he).2
          · intro hnd hs
            simp only [List.map_cons, List.nodup_cons] at hnd
            obtain ⟨hs0nd, hrestnd⟩ := hnd
            rw [List.filter_append]
            by_cases hss : s = s0
            · subst hss
              have hf1 : evs1.filter (fun e => decide (e.stage = s)) = evs1 :=
                List.filter_eq_self.mpr fun e he => by
                  simp [(hmem1 e he).2]
              have hf2 : evs2.filter (fun e => decide (e.stage = s)) = [] :=
                List.filter_eq_nil_iff.mpr fun e he => by
                  have := (hmem2 e he).2
                  simp only [decide_eq_true_eq]
                  intro hc
                  rw [hc] at this
                  exact hs0nd this
              rw [hf1, hf2, List.append_nil]
              obtain ⟨pre, last, hsh, hpre, hlast⟩ := hshape1
              exact ⟨pre, last, hsh, hpre, hlast⟩
            · have hf1 : evs1.filter (fun e => decide (e.stage = s)) = [] :=
                List.filter_eq_nil_iff.mpr fun e he => by
                  simp only [decide_eq_true_eq]
                  rw [(hmem1 e he).2]
                  exact fun hc => hss hc.symm
              rw [hf1, List.nil_append]
              have hsrest : s ∈ rest.map fun p => p.1.1 := by
                simp only [List.map_cons, List.mem_cons] at hs
                exact hs.resolve_left hss
              exact hshape2 hrestnd hsrest

theorem runShips_ships (stages : List (String × StageParams)) (start_date : ℚ) :
    ∀ (n i : ℕ) (avails : List (List ℚ)) (ds : List Draw)
      (evs : List Gen.Event) (avails2 : List (List ℚ)) (ds2 : List Draw),
    Gen.runShips stages start_date n i avails ds = some (evs, avails2, ds2) →
    ∀ e ∈ evs, ∃ j, i ≤ j ∧ j < i + n ∧ e.ship_id = shipId j := by
  intro n
  induction n with
  | zero =>
      intro i avails ds evs avails2 ds2 h
      simp only [Gen.runShips, Option.some.injEq, Prod.mk.injEq] at h
      obtain ⟨h1, h2, h3⟩ := h
      rw [← h1]
      simp
  | succ n ih =>
      intro i avails ds evs avails2 ds2 h
      rw [Gen.runShips] at h
      rcases h1 : Gen.runStages (shipId i) (stages.zip avails) start_date ds with
        _ | ⟨evs1, as1, r1, ds1⟩
      · simp only [h1] at h
        exact Option.noConfusion h
      · simp only [h1] at h
        rcases h2 : Gen.runShips stages start_date n (i + 1) as1 ds1 with
          _ | ⟨evs2, as2, dd2⟩
        · simp only [h2] at h
          exact Option.noConfusion h
        · simp only [h2, Option.some.injEq, Prod.mk.injEq] at h
          obtain ⟨hev, hav, hr3⟩ := h
          rw [← hev]
          intro e he
          rcases List.mem_append.mp he with he | he
          · exact ⟨i, le_refl i, by omega,
              ((runStages_events (shipId i) "" _ _ _ _ _ _ _ h1).1 e he).1⟩
          · obtain ⟨j, hj1, hj2, hj3⟩ := ih _ _ _ _ _ _ h2 e he
            exact ⟨j, by omega, by omega, hj3⟩

theorem runShips_events (stages : List (String × StageParams)) (start_date : ℚ)
    (s : String) (t : ℕ) :
    ∀ (n i : ℕ) (avails : List (List ℚ)) (ds : List Draw)
      (evs : List Gen.Event) (avails2 : List (List ℚ)) (ds2 : List Draw),
    Gen.runShips stages start_date n i avails ds = some (evs, avails2, ds2) →
    avails.length = stages.length →
    (stages.map Prod.fst).Nodup →
    s ∈ stages.map Prod.fst →
    i ≤ t → t < i + n →
    ∃ pre last,
      evs.filter (fun e => decide (e.ship_id = shipId t ∧ e.stage = s))
        = pre ++ [last] ∧
      (∀ e ∈ pre, e.qc_passed = false) ∧ last.qc_passed = true := by
  intro n
  induction n with
  | zero => intro i avails ds evs avails2 ds2 h hlen hnd hs ht1 ht2; omega
  | succ n ih =>
      intro i avails ds evs avails2 ds2 h hlen hnd hs ht1 ht2
      rw [Gen.runShips] at h
      rcases h1 : Gen.runStages (shipId i) (stages.zip avails) start_date ds with
        _ | ⟨evs1, as1, r1, ds1⟩
      · simp only [h1] at h
        exact Option.noConfusion h
      · simp only [h1] at h
        rcases h2 : Gen.runShips stages start_date n (i + 1) as1 ds1 with
          _ | ⟨evs2, as2, dd2⟩
        · simp only [h2] at h
          exact Option.noConfusion h
        · simp only [h2, Option.some.injEq, Prod.mk.injEq] at h
          obtain ⟨hev, hav, hr3⟩ := h
          subst hev
          have hzipnames : ((stages.zip avails).map fun p => p.1.1)
              = stages.map Prod.fst := by
            have h0 : (fun (p : (String × StageParams) × List ℚ) => p.1.1)
                = Prod.fst ∘ Prod.fst := rfl
            rw [h0, ← List.map_map, List.map_fst_zip _ _ (le_of_eq hlen.symm)]
          obtain ⟨hmem1, hshape1⟩ := runStages_events (shipId i) s _ _ _ _ _ _ _ h1
          rw [List.filter_append]
          by_cases hti : t = i
          · subst hti
            have hf1 : evs1.filter
                  (fun e => decide (e.ship_id = shipId t ∧ e.stage = s))
                = evs1.filter (fun e => decide (e.stage = s)) := by
              apply List.filter_congr
              intro e he
              simp [(hmem1 e he).1]
            have hf2 : evs2.filter
                (fun e => decide (e.ship_id = shipId t ∧ e.stage = s)) = [] := by
              apply List.filter_eq_nil_iff.mpr
              intro e he
              obtain ⟨j, hj1, hj2, hj3⟩ :=
                runShips_ships stages start_date _ _ _ _ _ _ _ h2 e he
              simp only [decide_eq_true_eq, not_and]
              intro hc
              rw [hj3] at hc
              have := shipId_injective j t hc
              omega
            rw [hf1, hf2, List.append_nil]
            exact hshape1 (hzipnames ▸ hnd) (hzipnames ▸ hs)
          · have hf1 : evs1.filter
                (fun e => decide (e.ship_id = shipId t ∧ e.stage = s)) = [] := by
              apply List.filter_eq_nil_iff.mpr
              intro e he
              simp only [decide_eq_true_eq, not_and]
              intro hc
              rw [(hmem1 e he).1] at hc
              exact absurd (shipId_injective i t hc) (fun hx => hti hx.symm)
            rw [hf1, List.nil_append]
            have hlen1 : as1.length = stages.length := by
              have := runStages_length (shipId i) _ _ _ _ _ _ _ h1
              rw [this, List.length_zip]
              omega
            exact ih (i + 1) _ _ _ _ _ h2 hlen1 hnd hs (by omega) (by omega)

/-- C4: in any completed run of the standalone engine with pairwise
distinct stage names, the ledger's events for a given (unit, stage)
pair — any ship index in range and any configured stage (in particular
one with positive pass rate) — consist of zero or more `qc_passed =
false` events followed by exactly one final `qc_passed = true` event. -/
theorem qc_pass_exactly_last (cfg : Config) (ds : List Draw) (log : List Gen.Event)
    (hnd : (cfg.production_stages.map Prod.fst).Nodup)
    (hrun : run_configurable_simulation (some cfg) ds = some log)
    (t : ℕ) (ht1 : 1 ≤ t) (ht2 : t ≤ cfg.simulation_parameters.num_starships)
    (s : String) (sp : StageParams) (hs : (s, sp) ∈ cfg.production_stages)
    (hpr : 0 < sp.pass_rate) :
    ∃ pre last,
      log.filter (fun e => decide (e.ship_id = shipId t ∧ e.stage = s))
        = pre ++ [last] ∧
      (∀ e ∈ pre, e.qc_passed = false) ∧ last.qc_passed = true := by
  rw [run_configurable_simulation] at hrun
  rcases h1 : Gen.runShips cfg.production_stages
      cfg.simulation_parameters.start_date
      cfg.simulation_parameters.num_starships 1
      (cfg.production_stages.map fun s =>
        List.replicate s.2.station_count cfg.simulation_parameters.start_date)
      ds with _ | ⟨evs, as2, ds2⟩
  · simp only [h1] at hrun
    exact Option.noConfusion hrun
  · simp only [h1, Option.some.injEq] at hrun
    subst hrun
    exact runShips_events cfg.production_stages
      cfg.simulation_parameters.start_date s t
      cfg.simulation_parameters.num_starships 1 _ _ _ _ _ h1
      (by simp) hnd (List.mem_map.mpr ⟨(s, sp), hs, rfl⟩) ht1 (by omega)

/-- Witness for C4: one ship, one stage with pass rate 1; the filtered
ledger is a single passing event. -/
theorem qc_pass_exactly_last_witness :
    (([("Welding", (⟨10, 2, 1, 1⟩ : StageParams))].map Prod.fst).Nodup) ∧
    run_configurable_simulation
        (some { simulation_parameters := { start_date := 0, num_starships := 1 },
                production_stages := [("Welding", ⟨10, 2, 1, 1⟩)] })
        [⟨2, 0⟩] =
      some [⟨"SN101", "Welding", "Welding_1", 0, 2, 2, true⟩] ∧
    (0 : ℚ) < (1 : ℚ) ∧
    ∃ pre last,
      ([(⟨"SN101", "Welding", "Welding_1", 0, 2, 2, true⟩ : Gen.Event)].filter
          (fun e => decide (e.ship_id = shipId 1 ∧ e.stage = "Welding")))
        = pre ++ [last] ∧
      (∀ e ∈ pre, e.qc_passed = false) ∧ last.qc_passed = true := by
  have hrun : run_configurable_simulation
      (some { simulation_parameters := { start_date := 0, num_starships := 1 },
              production_stages := [("Welding", ⟨10, 2, 1, 1⟩)] })
      [⟨2, 0⟩] =
      some [⟨"SN101", "Welding", "Welding_1", 0, 2, 2, true⟩] := by
    simp [run_configurable_simulation, Gen.runShips, Gen.runStages, Gen.runStage,
      argmin, argminAux, round2, rhe, shipId]
    norm_num
    decide
  refine ⟨by decide, hrun, by norm_num, ?_⟩
  exact qc_pass_exactly_last
    { simulation_parameters := { start_date := 0, num_starships := 1 },
      production_stages := [("Welding", ⟨10, 2, 1, 1⟩)] }
    [⟨2, 0⟩] _ (by decide) hrun 1 (le_refl 1) (le_refl 1)
    "Welding" ⟨10, 2, 1, 1⟩ (by simp) (by norm_num)
